import Mathlib

/-!
Verification development for the `lmdb` transaction-management and
patch-capture layer.

The underlying storage engine (LMDB itself) is an external collaborator:
we model it as a canonically ordered association list from cells
(bucket name, raw key bytes) to values, which matches the engine's
observable behaviour (keys within a bucket are kept in a canonical sorted
order, point get/put/delete, full ordered scans).

Go byte strings (bucket names, keys, values) are modelled as `List Nat`.
-/

namespace Lmdb

/-- Raw byte strings (Go `[]byte` / `string`). -/
abbrev Bytes := List Nat

/-- Lexicographic strict order on byte strings, as a boolean comparator. -/
def bytesLtb : Bytes → Bytes → Bool
  | [], [] => false
  | [], _ :: _ => true
  | _ :: _, [] => false
  | a :: as, b :: bs =>
    if a < b then true
    else if b < a then false
    else bytesLtb as bs

theorem bytesLtb_irrefl (l : Bytes) : bytesLtb l l = false := by
  induction l with
  | nil => rfl
  | cons a as ih => simp [bytesLtb, ih]

theorem bytesLtb_asymm (l m : Bytes) (h : bytesLtb l m = true) :
    bytesLtb m l = false := by
  induction l generalizing m with
  | nil =>
    cases m with
    | nil => simp [bytesLtb] at h
    | cons b bs => simp [bytesLtb]
  | cons a as ih =>
    cases m with
    | nil => simp [bytesLtb] at h
    | cons b bs =>
      by_cases hab : a < b
      · have hba : ¬ b < a := Nat.lt_asymm hab
        simp [bytesLtb, hab, hba]
      · by_cases hba : b < a
        · simp [bytesLtb, hab, hba] at h
        · have : a = b := Nat.le_antisymm (Nat.le_of_not_lt hba) (Nat.le_of_not_lt hab)
          subst this
          simp [bytesLtb, Nat.lt_irrefl] at h ⊢
          exact ih bs h

theorem bytesLtb_trans (l m n : Bytes) (h1 : bytesLtb l m = true)
    (h2 : bytesLtb m n = true) : bytesLtb l n = true := by
  induction l generalizing m n with
  | nil =>
    cases n with
    | nil =>
      cases m with
      | nil => simp [bytesLtb] at h1
      | cons b bs => simp [bytesLtb] at h2
    | cons c cs => simp [bytesLtb]
  | cons a as ih =>
    cases m with
    | nil => simp [bytesLtb] at h1
    | cons b bs =>
      cases n with
      | nil => simp [bytesLtb] at h2
      | cons c cs =>
        by_cases hab : a < b <;> by_cases hbc : b < c
        · have hac : a < c := Nat.lt_trans hab hbc
          simp [bytesLtb, hac]
        · have hbc' : ¬ c < b := by
            intro hcb
            simp [bytesLtb, hbc, hcb] at h2
          have hcb : b = c := Nat.le_antisymm (Nat.le_of_not_lt hbc') (Nat.le_of_not_lt hbc)
          subst hcb
          simp [bytesLtb, hab]
        · have hba : ¬ b < a := by
            intro hba
            simp [bytesLtb, hab, hba] at h1
          have hab' : a = b := Nat.le_antisymm (Nat.le_of_not_lt hba) (Nat.le_of_not_lt hab)
          subst hab'
          simp [bytesLtb, hbc]
        · have hba : ¬ b < a := by
            intro hba
            simp [bytesLtb, hab, hba] at h1
          have hab' : a = b := Nat.le_antisymm (Nat.le_of_not_lt hba) (Nat.le_of_not_lt hab)
          subst hab'
          have hcb : ¬ c < a := by
            intro hcb
            simp [bytesLtb, hbc, hcb] at h2
          have hac' : a = c := Nat.le_antisymm (Nat.le_of_not_lt hcb) (Nat.le_of_not_lt hbc)
          subst hac'
          simp [bytesLtb, Nat.lt_irrefl] at h1 h2 ⊢
          exact ih bs cs h1 h2

theorem bytesLtb_total (l m : Bytes) (h1 : bytesLtb l m = false)
    (h2 : bytesLtb m l = false) : l = m := by
  induction l generalizing m with
  | nil =>
    cases m with
    | nil => rfl
    | cons b bs => simp [bytesLtb] at h1
  | cons a as ih =>
    cases m with
    | nil => simp [bytesLtb] at h2
    | cons b bs =>
      by_cases hab : a < b
      · simp [bytesLtb, hab] at h1
      · by_cases hba : b < a
        · simp [bytesLtb, hba] at h2
        · have hab' : a = b := Nat.le_antisymm (Nat.le_of_not_lt hba) (Nat.le_of_not_lt hab)
          subst hab'
          simp [bytesLtb, Nat.lt_irrefl] at h1 h2
          rw [ih bs h1 h2]

/-- A cell address: a (bucket name, raw key) pair, as in the source's
`CellKey` (`Bucket string; Key []byte`), with the bucket name kept as its
byte string. -/
structure Cell where
  bucket : Bytes
  key : Bytes
  deriving DecidableEq, Repr

/-- Injective encoding of a cell into a single byte string, used to give
cells a canonical total order for the engine model. -/
def Cell.enc (c : Cell) : Bytes := c.bucket.length :: (c.bucket ++ c.key)

theorem Cell.enc_injective (c d : Cell) (h : Cell.enc c = Cell.enc d) : c = d := by
  unfold Cell.enc at h
  have hlen : c.bucket.length = d.bucket.length := by
    exact (List.cons.injEq _ _ _ _ ▸ h).1
  have happ : c.bucket ++ c.key = d.bucket ++ d.key := by
    exact (List.cons.injEq _ _ _ _ ▸ h).2
  have := List.append_inj happ hlen
  cases c; cases d
  simp_all

/-- Canonical strict order on cells (the engine's scan order in the model). -/
def cellLtb (c d : Cell) : Bool := bytesLtb (Cell.enc c) (Cell.enc d)

theorem cellLtb_irrefl (c : Cell) : cellLtb c c = false := bytesLtb_irrefl _

theorem cellLtb_asymm (c d : Cell) (h : cellLtb c d = true) : cellLtb d c = false :=
  bytesLtb_asymm _ _ h

theorem cellLtb_trans (c d e : Cell) (h1 : cellLtb c d = true)
    (h2 : cellLtb d e = true) : cellLtb c e = true :=
  bytesLtb_trans _ _ _ h1 h2

theorem cellLtb_total (c d : Cell) (h1 : cellLtb c d = false)
    (h2 : cellLtb d c = false) : c = d :=
  Cell.enc_injective _ _ (bytesLtb_total _ _ h1 h2)

theorem cellLtb_ne (c d : Cell) (h : cellLtb c d = true) : c ≠ d := by
  intro he
  subst he
  rw [cellLtb_irrefl] at h
  exact Bool.noConfusion h

/-- The engine's key/value content: an association list from cells to
values, kept sorted by `cellLtb` (the canonical scan order). -/
abbrev Cells := List (Cell × Bytes)

/-- A store is well-formed when its entries are strictly sorted by cell. -/
def SortedCells (s : Cells) : Prop :=
  List.Chain' (fun a b => cellLtb a.1 b.1 = true) s

/-- Executable check of well-formedness. -/
def sortedCellsb : Cells → Bool
  | [] => true
  | [_] => true
  | a :: b :: rest => cellLtb a.1 b.1 && sortedCellsb (b :: rest)

theorem sortedCells_iff_sortedCellsb (s : Cells) :
    SortedCells s ↔ sortedCellsb s = true := by
  induction s with
  | nil => simp [SortedCells, sortedCellsb]
  | cons a rest ih =>
    cases rest with
    | nil => simp [SortedCells, sortedCellsb]
    | cons b rest2 =>
      rw [SortedCells, List.chain'_cons, sortedCellsb, Bool.and_eq_true]
      rw [← ih]
      exact Iff.rfl

instance (s : Cells) : Decidable (SortedCells s) :=
  decidable_of_iff _ (sortedCells_iff_sortedCellsb s).symm

/-- Point lookup (`mdb_get`): the value stored at cell `c`, if present. -/
def lookupCell : Cells → Cell → Option Bytes
  | [], _ => none
  | (d, v) :: rest, c => if c = d then some v else lookupCell rest c

/-- Point write (`mdb_put`, default flags): inserts or overwrites,
keeping the canonical order. -/
def putCell : Cells → Cell → Bytes → Cells
  | [], c, v => [(c, v)]
  | (d, w) :: rest, c, v =>
    if cellLtb c d then (c, v) :: (d, w) :: rest
    else if c = d then (c, v) :: rest
    else (d, w) :: putCell rest c v

/-- Point delete (`mdb_del`): removes the cell if present; silently a
no-op otherwise. -/
def delCell : Cells → Cell → Cells
  | [], _ => []
  | (d, w) :: rest, c => if c = d then rest else (d, w) :: delCell rest c

theorem lookupCell_eq_none_of_forall_lt (s : Cells) (c : Cell)
    (h : ∀ p ∈ s, cellLtb c p.1 = true) : lookupCell s c = none := by
  induction s with
  | nil => rfl
  | cons p rest ih =>
    have hne : c ≠ p.1 := cellLtb_ne _ _ (h p (List.mem_cons_self _ _))
    obtain ⟨d, w⟩ := p
    simp only [lookupCell, if_neg hne]
    exact ih fun q hq => h q (List.mem_cons_of_mem _ hq)

theorem sortedCells_head_lt (p : Cell × Bytes) (s : Cells)
    (h : SortedCells (p :: s)) : ∀ q ∈ s, cellLtb p.1 q.1 = true := by
  induction s generalizing p with
  | nil =>
    intro q hq
    cases hq
  | cons r rest ih =>
    intro q hq
    have h1 : cellLtb p.1 r.1 = true := (List.chain'_cons.mp h).1
    rcases List.mem_cons.mp hq with hq' | hq'
    · rw [hq']
      exact h1
    · exact cellLtb_trans _ _ _ h1 (ih r (List.chain'_cons.mp h).2 q hq')

theorem sortedCells_tail (p : Cell × Bytes) (s : Cells)
    (h : SortedCells (p :: s)) : SortedCells s :=
  (List.chain'_cons'.mp h).2

theorem lookupCell_cons_self (c : Cell) (v : Bytes) (s : Cells) :
    lookupCell ((c, v) :: s) c = some v := by
  simp [lookupCell]

theorem lookupCell_cons_ne (c d : Cell) (v : Bytes) (s : Cells) (h : c ≠ d) :
    lookupCell ((d, v) :: s) c = lookupCell s c := by
  simp [lookupCell, h]

theorem mem_putCell (s : Cells) (c : Cell) (v : Bytes) (q : Cell × Bytes)
    (hmem : q ∈ putCell s c v) : q.1 = c ∨ q ∈ s := by
  induction s with
  | nil =>
    simp [putCell] at hmem
    left
    rw [hmem]
  | cons r rs ih =>
    obtain ⟨e, u⟩ := r
    by_cases g1 : cellLtb c e = true
    · simp only [putCell, if_pos g1] at hmem
      rcases List.mem_cons.mp hmem with h | h
      · left; rw [h]
      · right; exact h
    · by_cases g2 : c = e
      · subst g2
        rw [putCell, if_neg g1, if_pos rfl] at hmem
        rcases List.mem_cons.mp hmem with h | h
        · left; rw [h]
        · right; exact List.mem_cons_of_mem _ h
      · simp only [putCell, if_neg g1, if_neg g2] at hmem
        rcases List.mem_cons.mp hmem with h | h
        · right; exact List.mem_cons.mpr (Or.inl h)
        · rcases ih h with h' | h'
          · left; exact h'
          · right; exact List.mem_cons_of_mem _ h'

theorem mem_delCell (s : Cells) (c : Cell) (q : Cell × Bytes)
    (hmem : q ∈ delCell s c) : q ∈ s := by
  induction s with
  | nil => simp [delCell] at hmem
  | cons r rs ih =>
    obtain ⟨e, u⟩ := r
    by_cases g : c = e
    · rw [delCell, if_pos g] at hmem
      exact List.mem_cons_of_mem _ hmem
    · rw [delCell, if_neg g] at hmem
      rcases List.mem_cons.mp hmem with h' | h'
      · exact List.mem_cons.mpr (Or.inl h')
      · exact List.mem_cons_of_mem _ (ih h')

theorem mem_of_lookupCell (s : Cells) (c : Cell) (v : Bytes)
    (h : lookupCell s c = some v) : (c, v) ∈ s := by
  induction s with
  | nil => simp [lookupCell] at h
  | cons r rs ih =>
    obtain ⟨e, u⟩ := r
    by_cases g : c = e
    · subst g
      rw [lookupCell_cons_self] at h
      rw [Option.some.injEq] at h
      subst h
      exact List.mem_cons_self _ _
    · rw [lookupCell_cons_ne _ _ _ _ g] at h
      exact List.mem_cons_of_mem _ (ih h)

theorem sorted_putCell (s : Cells) (c : Cell) (v : Bytes) (hs : SortedCells s) :
    SortedCells (putCell s c v) := by
  induction s with
  | nil => simp [putCell, SortedCells]
  | cons p rest ih =>
    obtain ⟨d, w⟩ := p
    by_cases h1 : cellLtb c d = true
    · rw [putCell, if_pos h1]
      exact List.chain'_cons.mpr ⟨h1, hs⟩
    · by_cases h2 : c = d
      · subst h2
        rw [putCell, if_neg h1, if_pos rfl]
        refine List.chain'_cons'.mpr ⟨?_, sortedCells_tail _ _ hs⟩
        exact (List.chain'_cons'.mp hs).1
      · rw [putCell, if_neg h1, if_neg h2]
        refine List.chain'_cons'.mpr ⟨?_, ih (sortedCells_tail _ _ hs)⟩
        intro q hq
        have hmem : q ∈ putCell rest c v := List.mem_of_mem_head? hq
        have hdc : cellLtb d c = true := by
          by_cases h3 : cellLtb d c = true
          · exact h3
          · exact absurd (cellLtb_total c d (by simpa using h1) (by simpa using h3)) h2
        rcases mem_putCell _ _ _ _ hmem with h | h
        · rw [h]; exact hdc
        · exact sortedCells_head_lt _ _ hs q h

theorem sorted_delCell (s : Cells) (c : Cell) (hs : SortedCells s) :
    SortedCells (delCell s c) := by
  induction s with
  | nil => simp [delCell, SortedCells]
  | cons p rest ih =>
    obtain ⟨d, w⟩ := p
    by_cases h : c = d
    · rw [delCell, if_pos h]
      exact sortedCells_tail _ _ hs
    · rw [delCell, if_neg h]
      refine List.chain'_cons'.mpr ⟨?_, ih (sortedCells_tail _ _ hs)⟩
      intro q hq
      have hmem : q ∈ delCell rest c := List.mem_of_mem_head? hq
      exact sortedCells_head_lt _ _ hs q (mem_delCell _ _ _ hmem)

theorem lookup_putCell_self (s : Cells) (c : Cell) (v : Bytes) :
    lookupCell (putCell s c v) c = some v := by
  induction s with
  | nil => simp [putCell, lookupCell]
  | cons p rest ih =>
    obtain ⟨d, w⟩ := p
    by_cases h1 : cellLtb c d = true
    · simp [putCell, h1, lookupCell]
    · by_cases h2 : c = d
      · subst h2
        simp [putCell, h1, lookupCell]
      · simp [putCell, h1, h2, lookupCell, ih]

theorem lookup_putCell_ne (s : Cells) (c e : Cell) (v : Bytes) (hne : e ≠ c) :
    lookupCell (putCell s c v) e = lookupCell s e := by
  induction s with
  | nil => simp [putCell, lookupCell, hne]
  | cons p rest ih =>
    obtain ⟨d, w⟩ := p
    by_cases h1 : cellLtb c d = true
    · simp only [putCell, if_pos h1]
      rw [lookupCell_cons_ne _ _ _ _ hne]
    · by_cases h2 : c = d
      · subst h2
        rw [putCell, if_neg h1, if_pos rfl]
        rw [lookupCell_cons_ne _ _ _ _ hne, lookupCell_cons_ne _ _ _ _ hne]
      · rw [putCell, if_neg h1, if_neg h2]
        by_cases h3 : e = d
        · subst h3
          simp [lookupCell]
        · rw [lookupCell_cons_ne _ _ _ _ h3, lookupCell_cons_ne _ _ _ _ h3, ih]

theorem lookup_delCell_self (s : Cells) (c : Cell) (hs : SortedCells s) :
    lookupCell (delCell s c) c = none := by
  induction s with
  | nil => rfl
  | cons p rest ih =>
    obtain ⟨d, w⟩ := p
    by_cases h : c = d
    · subst h
      rw [delCell, if_pos rfl]
      exact lookupCell_eq_none_of_forall_lt _ _ (sortedCells_head_lt _ _ hs)
    · rw [delCell, if_neg h]
      rw [lookupCell_cons_ne _ _ _ _ h]
      exact ih (sortedCells_tail _ _ hs)

theorem lookup_delCell_ne (s : Cells) (c e : Cell) (hne : e ≠ c) (hs : SortedCells s) :
    lookupCell (delCell s c) e = lookupCell s e := by
  induction s with
  | nil => rfl
  | cons p rest ih =>
    obtain ⟨d, w⟩ := p
    by_cases h : c = d
    · subst h
      rw [delCell, if_pos rfl]
      rw [lookupCell_cons_ne _ _ _ _ hne]
    · rw [delCell, if_neg h]
      by_cases h3 : e = d
      · subst h3
        simp [lookupCell]
      · rw [lookupCell_cons_ne _ _ _ _ h3, lookupCell_cons_ne _ _ _ _ h3]
        exact ih (sortedCells_tail _ _ hs)

/-- Extensionality for well-formed stores: two sorted stores with the
same lookup function are equal. This is what makes the engine model
canonical: the full-scan enumeration is determined by the content. -/
theorem sortedCells_ext (s t : Cells) (hs : SortedCells s) (ht : SortedCells t)
    (h : ∀ c, lookupCell s c = lookupCell t c) : s = t := by
  induction s generalizing t with
  | nil =>
    cases t with
    | nil => rfl
    | cons q t' =>
      obtain ⟨d, w⟩ := q
      have := h d
      simp [lookupCell] at this
  | cons p s' ih =>
    obtain ⟨c, v⟩ := p
    cases t with
    | nil =>
      have := h c
      simp [lookupCell] at this
    | cons q t' =>
      obtain ⟨d, w⟩ := q
      -- each head is present in the other store, so the heads coincide
      have hcd : c = d := by
        by_contra hne
        have h1 : lookupCell ((d, w) :: t') c = some v := by
          rw [← h c]; exact lookupCell_cons_self _ _ _
        have h2 : lookupCell ((c, v) :: s') d = some w := by
          rw [h d]; exact lookupCell_cons_self _ _ _
        rw [lookupCell_cons_ne _ _ _ _ hne] at h1
        rw [lookupCell_cons_ne _ _ _ _ (Ne.symm hne)] at h2
        -- c appears in t', so d < c; d appears in s', so c < d: contradiction
        have hlt1 : cellLtb d c = true :=
          sortedCells_head_lt _ _ ht (c, v) (mem_of_lookupCell _ _ _ h1)
        have hlt2 : cellLtb c d = true :=
          sortedCells_head_lt _ _ hs (d, w) (mem_of_lookupCell _ _ _ h2)
        rw [cellLtb_asymm _ _ hlt2] at hlt1
        exact Bool.noConfusion hlt1
      subst hcd
      have hvw : v = w := by
        have := h c
        rw [lookupCell_cons_self, lookupCell_cons_self] at this
        rw [Option.some.injEq] at this
        exact this
      subst hvw
      have hrest : ∀ e, lookupCell s' e = lookupCell t' e := by
        intro e
        by_cases he : e = c
        · subst he
          rw [lookupCell_eq_none_of_forall_lt s' _ (sortedCells_head_lt _ _ hs),
            lookupCell_eq_none_of_forall_lt t' _ (sortedCells_head_lt _ _ ht)]
        · have := h e
          rw [lookupCell_cons_ne _ _ _ _ he, lookupCell_cons_ne _ _ _ _ he] at this
          exact this
      exact congrArg _ (ih t' (sortedCells_tail _ _ hs) (sortedCells_tail _ _ ht) hrest)

/-! ## Transaction runner (`Database.TransactionalRW` / `ReadWriteTxn.TransactionalRW`)

The Go runner begins a (possibly nested) write transaction, runs the body
while catching panics, and in a deferred block commits iff the body
returned `nil` and did not panic, otherwise aborts and re-raises any
panic (src/txn.go:95-131 and src/unnamed/part_003:302-338).

In the model a transaction works on a private copy of the store; commit
publishes that copy, abort discards it. A body's dynamic outcome is
`ok` (returned nil), `err e` (returned a non-nil error), or
`panic n` (a panic carrying payload token `n`). -/

/-- Outcome of running a transaction body. -/
inductive BodyOut (ε : Type) where
  | ok : BodyOut ε
  | err : ε → BodyOut ε
  | panic : Nat → BodyOut ε
  deriving DecidableEq, Repr

/-- Result surfaced by the transaction runner to its caller: either a
normal return of `nil`/an error, or a re-raised panic. -/
inductive RWOut (ε : Type) where
  | ret : Option ε → RWOut ε
  | panicked : Nat → RWOut ε
  deriving DecidableEq, Repr

/-- `TransactionalRW`: run `body` on a child transaction of the store
`s`; commit (publish the body's writes) iff the body returned `nil` and
did not panic; otherwise abort (keep `s`), re-raising a panic.
The `σ` component models values the Go body smuggles out through closure
captures (e.g. `MakePatch`'s `patch` variable): assignments to captured
variables survive even an aborted transaction. -/
def runRW {ε σ : Type} (s : Cells) (body : Cells → Cells × σ × BodyOut ε) :
    Cells × σ × RWOut ε :=
  match body s with
  | (s2, out, .ok) => (s2, out, .ret none)
  | (_, out, .err e) => (s, out, .ret (some e))
  | (_, out, .panic n) => (s, out, .panicked n)

/-! ## Mutation bodies as operation lists

The patch claims quantify over bodies consisting of `Put`/`Delete`
calls. Such a body is embedded as a list of operations followed by a
final outcome (the value the Go function returns, or a panic). -/

/-- One mutation issued through the `ReadWriteTxn` API. -/
inductive Op where
  | put : Bytes → Bytes → Bytes → Op
  | del : Bytes → Bytes → Op
  deriving DecidableEq, Repr

/-- The cell targeted by an operation. -/
def Op.cell : Op → Cell
  | .put b k _ => ⟨b, k⟩
  | .del b k => ⟨b, k⟩

/-- Effect of one `Put`/`Delete` on the engine store
(`ReadWriteTxn.Put` / `ReadWriteTxn.Delete`, src/txn.go:140-152). -/
def applyOp (s : Cells) : Op → Cells
  | .put b k v => putCell s ⟨b, k⟩ v
  | .del b k => delCell s ⟨b, k⟩

/-- Effect of a whole body's `Put`/`Delete` sequence. -/
def applyOps (s : Cells) (ops : List Op) : Cells :=
  ops.foldl applyOp s

/-- Modelled from the spec: the dirty-key set accumulated by a
patch-recording transaction. The tracking code in the current `txn.go`
(the version whose `ReadWriteTxn` carries a `dirtyKeys map[string]bool`
updated by `Put`/`Delete`) is not among the provided sources; per §3 of
the spec, "dirtyKeys ... is the union of all Put/Delete target cells
issued directly in a transaction". The map keyed by serialized cell keys
is modelled as a duplicate-free list of cells. -/
def dirtyOf (ops : List Op) : List Cell :=
  (ops.map Op.cell).dedup

/-- The recorded net effect on one cell (src/unnamed/part_006):
`exists` is false for a deleted/absent cell. `exists` is a reserved word
in Lean, hence the primed field name. -/
structure cellState where
  bucket : Bytes
  key : Bytes
  exists' : Bool
  value : Bytes
  deriving DecidableEq, Repr

/-- A patch: the collection of recorded cell states. -/
abbrev TxnPatch := List cellState

/-- The cell state recorded for cell `c` by reading the (still-open)
transaction `s`: `cell.value, cell.exists = rwtxn.Get(...)`, where a
missing key yields `(nil, false)` (src/unnamed/part_003:81-83). -/
def cellStateAt (s : Cells) (c : Cell) : cellState :=
  { bucket := c.bucket
    key := c.key
    exists' := (lookupCell s c).isSome
    value := (lookupCell s c).getD [] }

/-- Internal error type threaded through the dry-run machinery:
a body error is either the internal `dryRunDummyError` sentinel or a
genuine application error (which, `dryRunDummyError` being an unexported
type, callers outside the package can never construct). -/
inductive DErr (ε : Type) where
  | dummy : DErr ε
  | real : ε → DErr ε
  deriving DecidableEq, Repr

/-- `DryRunRWTxn` (src/unnamed/part_003:53-66): run the body inside
`TransactionalRW`, replacing a `nil` body result by the sentinel so the
runner always aborts; afterwards filter the sentinel back out. The body
is an operation list followed by outcome `r`. -/
def DryRunRWTxn (s : Cells) (ops : List Op) (r : BodyOut Unit) :
    Cells × RWOut (DErr Unit) :=
  let run := runRW (σ := Unit) s (fun s0 =>
    let s1 := applyOps s0 ops
    match r with
    | .ok => (s1, (), .err DErr.dummy)
    | .err _ => (s1, (), .err (DErr.real ()))
    | .panic n => (s1, (), .panic n))
  let filtered : RWOut (DErr Unit) :=
    match run.2.2 with
    | .ret (some DErr.dummy) => .ret none
    | other => other
  (run.1, filtered)

/-- `MakePatch` (src/unnamed/part_003:69-95): dry-run the body with
dirty-key tracking on; if the body succeeds, record a `cellState` for
every dirty cell by reading the still-open transaction, then force the
rollback via the sentinel; finally filter the sentinel out of the
returned error. Yields (store after the call, patch, surfaced result).
The body is `ops` followed by outcome `r` (with application errors
drawn from `ε`). -/
def MakePatch {ε : Type} (s : Cells) (ops : List Op) (r : BodyOut ε) :
    Cells × TxnPatch × RWOut (DErr ε) :=
  let run := runRW (σ := TxnPatch) s (fun s0 =>
    let s1 := applyOps s0 ops
    match r with
    | .ok => (s1, (dirtyOf ops).map (cellStateAt s1), .err DErr.dummy)
    | .err e => (s1, [], .err (DErr.real e))
    | .panic n => (s1, [], .panic n))
  let filtered : RWOut (DErr ε) :=
    match run.2.2 with
    | .ret (some DErr.dummy) => .ret none
    | other => other
  (run.1, run.2.1, filtered)

/-- Modelled from the spec: `ReadWriteTxn.ApplyPatch` is not among the
provided sources (only its callers and tests are); per §4.4 of the spec
it replays a patch as ordinary calls inside an open write transaction:
"for every CellState in the patch, `put(bucket,key,value)` if exists
else `delete(bucket,key)`". -/
def ApplyPatch (s : Cells) (patch : TxnPatch) : Cells :=
  patch.foldl (fun s0 cs =>
    if cs.exists' then putCell s0 ⟨cs.bucket, cs.key⟩ cs.value
    else delCell s0 ⟨cs.bucket, cs.key⟩) s

/-- `MakeDePatch` (src/unnamed/part_003:100-126): first capture the
patch with `MakePatch` (a rolled-back dry run); on failure propagate the
error with no patch; on success run a second `TransactionalRW` whose
body rewrites each patch entry's `exists` flag from the pre-state and
then runs the body again — this second transaction commits when the body
returns `nil`. (The Go loop assigns `j.value = value` to a loop-local
copy, so recorded values are left untouched; only `exists` is updated.) -/
def MakeDePatch {ε : Type} (s : Cells) (ops : List Op) (r : BodyOut ε) :
    Cells × Option TxnPatch × RWOut (DErr ε) :=
  let first := MakePatch s ops r
  match first.2.2 with
  | .ret none =>
    let pa := first.2.1.map (fun cs =>
      { cs with exists' := (lookupCell first.1 ⟨cs.bucket, cs.key⟩).isSome })
    let second := runRW (σ := Unit) first.1 (fun s0 =>
      let s1 := applyOps s0 ops
      match r with
      | .ok => (s1, (), .ok)
      | .err e => (s1, (), .err (DErr.real e))
      | .panic n => (s1, (), .panic n))
    (second.1, some pa, .ret none)
  | .ret (some e) => (first.1, none, .ret (some e))
  | .panicked n => (first.1, none, .panicked n)

/-! ## Database handle, full-scan patch and equality checker -/

/-- A database handle: the opened bucket table plus the committed engine
content. The engine enumerates its content in the canonical cell order
of the model. -/
structure Db where
  bucketNames : List Bytes
  cells : Cells
  deriving DecidableEq, Repr

/-- `MakePatchOfDb` (src/unnamed/part_001:7-30): open a read
transaction, enumerate every existing bucket and fully scan it from
first to last entry, recording every present cell with `exists = true`.
In the model the engine's full scan is exactly the canonical store
enumeration. -/
def MakePatchOfDb (db : Db) : TxnPatch :=
  db.cells.map (fun cv => ⟨cv.1.bucket, cv.1.key, true, cv.2⟩)

/-- `IsEqualDb` (src/unnamed/part_001:32-36): structural
(`reflect.DeepEqual`) comparison of the two full-scan patches. -/
def IsEqualDb (a b : Db) : Bool := decide (MakePatchOfDb a = MakePatchOfDb b)

/-- `Database.TransactionalRW` at the `Db` level: the committed engine
content is replaced only on commit. -/
def dbRunRW {ε σ : Type} (db : Db) (body : Cells → Cells × σ × BodyOut ε) :
    Db × σ × RWOut ε :=
  let r := runRW db.cells body
  ({ db with cells := r.1 }, r.2)

/-! ## Closing models (claim about `Close` under open transactions)

Two generations of the handle exist in the sources. The legacy
`Context` (src/unnamed/part_000) records a current transaction inside
the handle; the current `Database` (src/unnamed/part_003) does not track
its transactions at all. -/

/-- Legacy `Context` handle state: whether the environment is open and
whether the handle currently holds a transaction (`ctx.txn != nil`). -/
structure ContextState where
  envOpen : Bool
  txnOpen : Bool
  deriving DecidableEq, Repr

/-- `Context.CloseDB` (src/unnamed/part_000:121-128): panics
("Closing database inside a transaction") when a transaction is still
open; otherwise destroys the environment. `none` models the panic. -/
def contextCloseDB (c : ContextState) : Option ContextState :=
  if c.txnOpen then none
  else some { c with envOpen := false }

/-- Current `Database` handle state: the environment flag plus the
number of transactions currently open against the environment (which
the handle itself does not track). -/
structure DatabaseState where
  envOpen : Bool
  openTxns : Nat
  deriving DecidableEq, Repr

/-- `Database.Close` (src/unnamed/part_003:250-255): destroys the
environment whenever it is non-nil and returns its error (`none` on
success); no check of any kind against open transactions is made. -/
def databaseClose (d : DatabaseState) : DatabaseState × Option String :=
  if d.envOpen then ({ d with envOpen := false }, none)
  else (d, none)

/-! ## `Open2` and the maximum-bucket limit -/

/-- The maxDB adjustment at the top of `Open2`
(src/unnamed/part_003:152-155): a configured maximum smaller than the
number of requested buckets is silently raised to that number. -/
def open2MaxDB (maxDB : Int) (buckets : List Bytes) : Int :=
  if maxDB < (buckets.length : Int) then (buckets.length : Int) else maxDB

/-- `Database.openBuckets` (src/unnamed/part_003:196-217) against an
engine honouring a max-named-bucket limit: an empty name is a
descriptive error; an already-cached name is skipped; otherwise
`DBIOpen(name, CREATE)` succeeds unless it would exceed the limit
(`MDB_DBS_FULL`). Returns the bucket table keys. -/
def openBucketsGo (limit : Int) : List Bytes → List Bytes → Except String (List Bytes)
  | acc, [] => .ok acc
  | acc, name :: rest =>
    if name = [] then .error "Bucket name is empty"
    else if name ∈ acc then openBucketsGo limit acc rest
    else if limit < (acc.length : Int) + 1 then .error "MDB_DBS_FULL"
    else openBucketsGo limit (acc ++ [name]) rest

/-- `Open2` restricted to the bucket-limit logic the claim is about:
adjust `maxDB`, configure the engine with it, then bootstrap the
buckets. -/
def open2Buckets (maxDB : Int) (buckets : List Bytes) : Except String (List Bytes) :=
  openBucketsGo (open2MaxDB maxDB buckets) [] buckets

/-! ## Lemmas about operation replay and patch application -/

theorem sorted_applyOp (s : Cells) (op : Op) (hs : SortedCells s) :
    SortedCells (applyOp s op) := by
  cases op with
  | put b k v => exact sorted_putCell _ _ _ hs
  | del b k => exact sorted_delCell _ _ hs

theorem sorted_applyOps (s : Cells) (ops : List Op) (hs : SortedCells s) :
    SortedCells (applyOps s ops) := by
  induction ops generalizing s with
  | nil => exact hs
  | cons op rest ih => exact ih _ (sorted_applyOp _ _ hs)

theorem lookup_applyOp_ne (s : Cells) (op : Op) (c : Cell) (hs : SortedCells s)
    (hne : c ≠ op.cell) : lookupCell (applyOp s op) c = lookupCell s c := by
  cases op with
  | put b k v => exact lookup_putCell_ne _ _ _ _ hne
  | del b k => exact lookup_delCell_ne _ _ _ hne hs

theorem lookup_applyOps_notDirty (s : Cells) (ops : List Op) (c : Cell)
    (hs : SortedCells s) (hc : c ∉ ops.map Op.cell) :
    lookupCell (applyOps s ops) c = lookupCell s c := by
  induction ops generalizing s with
  | nil => rfl
  | cons op rest ih =>
    have hne : c ≠ op.cell := by
      intro h
      exact hc (List.mem_cons.mpr (Or.inl h))
    have hrest : c ∉ rest.map Op.cell := by
      intro h
      exact hc (List.mem_cons.mpr (Or.inr h))
    calc lookupCell (applyOps (applyOp s op) rest) c
        = lookupCell (applyOp s op) c := ih _ (sorted_applyOp _ _ hs) hrest
      _ = lookupCell s c := lookup_applyOp_ne _ _ _ hs hne

theorem cell_eta (c : Cell) : (⟨c.bucket, c.key⟩ : Cell) = c := by
  cases c
  rfl

/-- Effect on the store of replaying one recorded cell state taken from
a reference store `s2`. -/
theorem lookup_applyPatch_step (s s2 : Cells) (c0 c : Cell) (hs : SortedCells s) :
    lookupCell
      (if (cellStateAt s2 c0).exists' then
        putCell s ⟨(cellStateAt s2 c0).bucket, (cellStateAt s2 c0).key⟩ (cellStateAt s2 c0).value
      else delCell s ⟨(cellStateAt s2 c0).bucket, (cellStateAt s2 c0).key⟩) c
    = if c = c0 then lookupCell s2 c0 else lookupCell s c := by
  simp only [cellStateAt, cell_eta]
  by_cases hex : (lookupCell s2 c0).isSome
  · simp only [hex, if_true]
    by_cases hc : c = c0
    · subst hc
      rw [if_pos rfl, lookup_putCell_self]
      obtain ⟨v, hv⟩ := Option.isSome_iff_exists.mp hex
      rw [hv]
      rfl
    · rw [if_neg hc, lookup_putCell_ne _ _ _ _ hc]
  · rw [if_neg hex]
    by_cases hc : c = c0
    · subst hc
      rw [if_pos rfl, lookup_delCell_self _ _ hs]
      rw [Option.not_isSome_iff_eq_none] at hex
      rw [hex]
    · rw [if_neg hc, lookup_delCell_ne _ _ _ hc hs]

theorem sorted_applyPatch (s : Cells) (patch : TxnPatch) (hs : SortedCells s) :
    SortedCells (ApplyPatch s patch) := by
  induction patch generalizing s with
  | nil => exact hs
  | cons cs rest ih =>
    show SortedCells (ApplyPatch _ rest)
    apply ih
    by_cases hex : cs.exists'
    · simp only [hex, if_true]
      exact sorted_putCell _ _ _ hs
    · simp only [hex, if_false]
      exact sorted_delCell _ _ hs

/-- Replaying the recorded states of a cell list against `s` rewrites
exactly the listed cells to their values in the reference store `s2`. -/
theorem lookup_applyPatch (s s2 : Cells) (cells : List Cell) (c : Cell)
    (hs : SortedCells s) :
    lookupCell (ApplyPatch s (cells.map (cellStateAt s2))) c
    = if c ∈ cells then lookupCell s2 c else lookupCell s c := by
  induction cells generalizing s with
  | nil => simp [ApplyPatch]
  | cons c0 rest ih =>
    have hstep : SortedCells
        (if (cellStateAt s2 c0).exists' then
          putCell s ⟨(cellStateAt s2 c0).bucket, (cellStateAt s2 c0).key⟩
            (cellStateAt s2 c0).value
        else delCell s ⟨(cellStateAt s2 c0).bucket, (cellStateAt s2 c0).key⟩) := by
      by_cases hex : (cellStateAt s2 c0).exists'
      · simp only [hex, if_true]
        exact sorted_putCell _ _ _ hs
      · simp only [hex, if_false]
        exact sorted_delCell _ _ hs
    show lookupCell (ApplyPatch _ (rest.map (cellStateAt s2))) c = _
    rw [ih _ hstep, lookup_applyPatch_step s s2 c0 c hs]
    by_cases h1 : c ∈ rest
    · simp [h1, List.mem_cons.mpr (Or.inr h1)]
    · by_cases h2 : c = c0
      · subst h2
        simp [h1, List.mem_cons]
      · simp [h1, h2, List.mem_cons]

/-- Central replay lemma: committing the body directly and replaying the
captured patch produce the same store. -/
theorem applyOps_eq_applyPatch (s : Cells) (ops : List Op) (hs : SortedCells s) :
    ApplyPatch s ((dirtyOf ops).map (cellStateAt (applyOps s ops))) = applyOps s ops := by
  apply sortedCells_ext
  · exact sorted_applyPatch _ _ hs
  · exact sorted_applyOps _ _ hs
  · intro c
    rw [lookup_applyPatch _ _ _ _ hs]
    by_cases h : c ∈ dirtyOf ops
    · rw [if_pos h]
    · rw [if_neg h]
      have : c ∉ ops.map Op.cell := by
        intro hmem
        exact h (List.mem_dedup.mpr hmem)
      rw [lookup_applyOps_notDirty _ _ _ hs this]

/-- `MakePatch` on a successful body: the dirty cells' final states are
recorded and the transaction is rolled back. -/
theorem MakePatch_ok {ε : Type} (s : Cells) (ops : List Op) :
    MakePatch (ε := ε) s ops .ok
      = (s, (dirtyOf ops).map (cellStateAt (applyOps s ops)), .ret none) := rfl

/-- `MakePatch` on a failing body: empty patch, the body's own error. -/
theorem MakePatch_err {ε : Type} (s : Cells) (ops : List Op) (e : ε) :
    MakePatch s ops (.err e) = (s, [], .ret (some (DErr.real e))) := rfl

/-- `MakePatch` on a panicking body: the panic is re-raised. -/
theorem MakePatch_panic {ε : Type} (s : Cells) (ops : List Op) (n : Nat) :
    MakePatch (ε := ε) s ops (.panic n) = (s, [], .panicked n) := rfl

/-- Predicate: is this surfaced result the internal dry-run sentinel? -/
def isDummyErr {ε : Type} : RWOut (DErr ε) → Bool
  | .ret (some DErr.dummy) => true
  | _ => false

/-! ## Claims -/

/-- C1: for every write-transaction body run by `TransactionalRW`:
a body that returns nil and does not panic is committed; a body that
returns a non-nil error is aborted with that same error returned; a body
that panics is aborted and the panic re-raised — and on any execution
whose outcome is a propagated panic the store is unchanged (no commit
occurred). -/
theorem transactionalRW_commit_abort {ε σ : Type} (db : Db)
    (body : Cells → Cells × σ × BodyOut ε) :
    (∀ s2 out, body db.cells = (s2, out, .ok) →
      dbRunRW db body = ({ db with cells := s2 }, out, .ret none))
    ∧ (∀ s2 out e, body db.cells = (s2, out, .err e) →
      dbRunRW db body = (db, out, .ret (some e)))
    ∧ (∀ s2 out n, body db.cells = (s2, out, .panic n) →
      dbRunRW db body = (db, out, .panicked n))
    ∧ (∀ db' out n, dbRunRW db body = (db', out, .panicked n) → db' = db) := by
  refine ⟨?_, ?_, ?_, ?_⟩
  · intro s2 out h
    simp [dbRunRW, runRW, h]
  · intro s2 out e h
    simp [dbRunRW, runRW, h]
  · intro s2 out n h
    simp [dbRunRW, runRW, h]
  · intro db' out n h
    unfold dbRunRW runRW at h
    rcases hb : body db.cells with ⟨s2, o, r⟩
    cases r <;> rw [hb] at h <;> simp at h
    rw [← h.1]

theorem transactionalRW_commit_abort_witness :
    dbRunRW (⟨[], []⟩ : Db)
        (fun s => (putCell s ⟨[1], [2]⟩ [3], (), BodyOut.ok (ε := Unit)))
      = (⟨[], [(⟨[1], [2]⟩, [3])]⟩, (), .ret none)
    ∧ dbRunRW (⟨[], []⟩ : Db)
        (fun s => (putCell s ⟨[1], [2]⟩ [3], (), BodyOut.err 7))
      = (⟨[], []⟩, (), .ret (some 7))
    ∧ dbRunRW (⟨[], []⟩ : Db)
        (fun s => (putCell s ⟨[1], [2]⟩ [3], (), BodyOut.panic (ε := Unit) 5))
      = (⟨[], []⟩, (), .panicked 5) :=
  ⟨(transactionalRW_commit_abort _ _).1 _ _ rfl,
   (transactionalRW_commit_abort _ _).2.1 _ _ _ rfl,
   (transactionalRW_commit_abort _ _).2.2.1 _ _ _ rfl⟩

/-- C3: `MakePatch` never persists anything: whatever the body's
outcome (success, error or panic), the write transaction it runs is
rolled back, so the store after the call — and hence every read made by
a later read transaction — is exactly the state from before the call. -/
theorem makePatch_dry_run_isolation {ε : Type} (s : Cells) (ops : List Op)
    (r : BodyOut ε) :
    (MakePatch s ops r).1 = s
    ∧ (∀ c, lookupCell (MakePatch s ops r).1 c = lookupCell s c) := by
  cases r <;> exact ⟨rfl, fun _ => rfl⟩

/-- C4: a body failing with application error `e` makes `MakePatch`
return an empty patch together with exactly `e`; and neither `MakePatch`
nor `DryRunRWTxn` ever surfaces the internal dry-run sentinel to its
caller. -/
theorem makePatch_error_propagation {ε : Type} (s : Cells) (ops : List Op) :
    (∀ e : ε, MakePatch s ops (.err e) = (s, [], .ret (some (DErr.real e))))
    ∧ (∀ r : BodyOut ε, isDummyErr (MakePatch s ops r).2.2 = false)
    ∧ (∀ r : BodyOut Unit, isDummyErr (DryRunRWTxn s ops r).2 = false) := by
  refine ⟨fun e => rfl, fun r => ?_, fun r => ?_⟩
  · cases r <;> rfl
  · cases r <;> rfl

/-- C9: a successful `MakeDePatch` first captures the patch in a
rolled-back dry run (which leaves the store at `s`), then runs the body
a second time in a write transaction that commits — so, unlike
`MakePatch`, it persists the body's changes. -/
theorem makeDePatch_persists {ε : Type} (s : Cells) (ops : List Op) :
    (MakeDePatch (ε := ε) s ops .ok).1 = applyOps s ops
    ∧ (MakePatch (ε := ε) s ops .ok).1 = s := by
  exact ⟨rfl, rfl⟩

/-- The full-scan recording function is injective on store entries. -/
theorem patchEntry_injective :
    Function.Injective
      (fun cv : Cell × Bytes => (⟨cv.1.bucket, cv.1.key, true, cv.2⟩ : cellState)) := by
  intro x y h
  obtain ⟨⟨xb, xk⟩, xv⟩ := x
  obtain ⟨⟨yb, yk⟩, yv⟩ := y
  simp only [cellState.mk.injEq] at h
  simp [h.1, h.2.1, h.2.2]

theorem isEqualDb_iff_cells_eq (a b : Db) :
    IsEqualDb a b = true ↔ a.cells = b.cells := by
  unfold IsEqualDb MakePatchOfDb
  rw [decide_eq_true_iff]
  constructor
  · intro h
    exact List.map_injective_iff.mpr patchEntry_injective h
  · intro h
    rw [h]

/-- C2: for a mutation body consisting of Put/Delete operations and two
databases with identical contents, committing the body on `dbA` and
replaying `MakePatch(dbB, body)`'s patch on `dbB` inside one committed
write transaction leave the two databases equal. -/
theorem makePatch_applyPatch_round_trip (dbA dbB : Db) (ops : List Op)
    (hsB : SortedCells dbB.cells) (hinit : IsEqualDb dbA dbB = true) :
    IsEqualDb
      (dbRunRW dbA (fun s => (applyOps s ops, (), BodyOut.ok (ε := Unit)))).1
      (dbRunRW dbB (fun s =>
        (ApplyPatch s (MakePatch (ε := Unit) dbB.cells ops .ok).2.1, (),
          BodyOut.ok (ε := Unit)))).1 = true := by
  rw [isEqualDb_iff_cells_eq] at hinit ⊢
  show applyOps dbA.cells ops
      = ApplyPatch dbB.cells (MakePatch (ε := Unit) dbB.cells ops .ok).2.1
  rw [MakePatch_ok, hinit]
  exact (applyOps_eq_applyPatch dbB.cells ops hsB).symm

theorem makePatch_applyPatch_round_trip_witness :
    SortedCells ((⟨[[1]], [(⟨[1], [5]⟩, [9])]⟩ : Db)).cells
    ∧ IsEqualDb ⟨[[1]], [(⟨[1], [5]⟩, [9])]⟩ ⟨[[1]], [(⟨[1], [5]⟩, [9])]⟩ = true
    ∧ IsEqualDb
      (dbRunRW (⟨[[1]], [(⟨[1], [5]⟩, [9])]⟩ : Db)
        (fun s => (applyOps s [.put [1] [2] [3], .del [1] [5]], (), BodyOut.ok (ε := Unit)))).1
      (dbRunRW (⟨[[1]], [(⟨[1], [5]⟩, [9])]⟩ : Db)
        (fun s =>
          (ApplyPatch s (MakePatch (ε := Unit) ((⟨[[1]], [(⟨[1], [5]⟩, [9])]⟩ : Db)).cells
            [.put [1] [2] [3], .del [1] [5]] .ok).2.1, (),
            BodyOut.ok (ε := Unit)))).1 = true :=
  ⟨by decide, by decide,
    makePatch_applyPatch_round_trip _ _ _ (by decide) (by decide)⟩

/-- Counting helper: a duplicate-free list has at most one entry equal
to any given element. -/
theorem countP_eq_le_one {α : Type} [DecidableEq α] (l : List α) (hl : l.Nodup) (a : α) :
    l.countP (fun x => decide (x = a)) ≤ 1 := by
  induction l with
  | nil => simp
  | cons x xs ih =>
    rw [List.countP_cons]
    rcases List.nodup_cons.mp hl with ⟨hx, hxs⟩
    by_cases hxa : x = a
    · subst hxa
      have hz : xs.countP (fun y => decide (y = x)) = 0 := by
        rw [List.countP_eq_zero]
        intro y hy
        simp only [decide_eq_true_eq]
        intro he
        exact hx (he ▸ hy)
      simp [hz]
    · simp [hxa, ih hxs]

/-- C5: a `MakePatch` patch has at most one `cellState` per distinct
(bucket, key); each entry records the net effect (the final `Get` of
that cell in the still-open transaction); in particular
Put(k,"a");Put(k,"b") yields exactly one entry with value "b", and
Put(k,"a");Delete(k) yields exactly one entry with exists=false. -/
theorem makePatch_minimality (s : Cells) (ops : List Op) (B K : Bytes) :
    ((MakePatch (ε := Unit) s ops .ok).2.1.countP
        (fun cs => decide (cs.bucket = B ∧ cs.key = K)) ≤ 1)
    ∧ (∀ cs ∈ (MakePatch (ε := Unit) s ops .ok).2.1,
        cs = cellStateAt (applyOps s ops) ⟨cs.bucket, cs.key⟩)
    ∧ (MakePatch (ε := Unit) [] [.put [1] [7] [97], .put [1] [7] [98]] .ok).2.1
        = [⟨[1], [7], true, [98]⟩]
    ∧ (MakePatch (ε := Unit) [] [.put [1] [7] [97], .del [1] [7]] .ok).2.1
        = [⟨[1], [7], false, []⟩] := by
  refine ⟨?_, ?_, by decide, by decide⟩
  · rw [MakePatch_ok]
    rw [List.countP_map]
    have hcong : ∀ c ∈ dirtyOf ops,
        (((fun cs => decide (cs.bucket = B ∧ cs.key = K)) ∘ cellStateAt (applyOps s ops)) c
          = true)
          ↔ ((fun x => decide (x = (⟨B, K⟩ : Cell))) c = true) := by
      intro c _
      rcases c with ⟨cb, ck⟩
      simp [Function.comp, cellStateAt, Cell.mk.injEq]
    rw [List.countP_congr hcong]
    exact countP_eq_le_one _ (List.nodup_dedup _) _
  · rw [MakePatch_ok]
    intro cs hcs
    rcases List.mem_map.mp hcs with ⟨c, _, hc⟩
    rw [← hc]
    simp [cellStateAt, cell_eta]

theorem makePatch_minimality_witness :
    ∃ cs, cs ∈ (MakePatch (ε := Unit) [] [.put [1] [7] [97], .del [1] [7]] .ok).2.1
      ∧ cs = cellStateAt
          (applyOps [] [.put [1] [7] [97], .del [1] [7]]) ⟨cs.bucket, cs.key⟩ :=
  ⟨⟨[1], [7], false, []⟩, by decide,
    (makePatch_minimality [] [.put [1] [7] [97], .del [1] [7]] [1] [7]).2.1
      ⟨[1], [7], false, []⟩ (by decide)⟩

/-- Key/value membership determines lookup on a sorted store. -/
theorem lookupCell_of_mem (s : Cells) (c : Cell) (v : Bytes)
    (hs : SortedCells s) (h : (c, v) ∈ s) : lookupCell s c = some v := by
  induction s with
  | nil => cases h
  | cons p rest ih =>
    rcases List.mem_cons.mp h with h' | h'
    · rw [← h']
      exact lookupCell_cons_self _ _ _
    · have hlt : cellLtb p.1 c = true := sortedCells_head_lt _ _ hs (c, v) h'
      have hne : c ≠ p.1 := fun he => cellLtb_ne _ _ hlt he.symm
      obtain ⟨d, w⟩ := p
      rw [lookupCell_cons_ne _ _ _ _ hne]
      exact ih (sortedCells_tail _ _ hs) h'

/-- Two sorted stores with the same entries are equal. -/
theorem sortedCells_eq_of_mem_iff (s t : Cells) (hs : SortedCells s)
    (ht : SortedCells t) (h : ∀ cv : Cell × Bytes, cv ∈ s ↔ cv ∈ t) : s = t := by
  apply sortedCells_ext s t hs ht
  intro c
  cases hl : lookupCell s c with
  | some v =>
    exact ((lookupCell_of_mem t c v ht ((h (c, v)).mp (mem_of_lookupCell _ _ _ hl)))).symm
  | none =>
    cases hr : lookupCell t c with
    | none => rfl
    | some w =>
      have : (c, w) ∈ s := (h (c, w)).mpr (mem_of_lookupCell _ _ _ hr)
      rw [lookupCell_of_mem s c w hs this] at hl
      exact Option.noConfusion hl

/-- C6: `IsEqualDb` returns true exactly when the two full-scan patches
are equal as sets of cell states — membership alone decides it, so the
verdict does not depend on any enumeration order. -/
theorem isEqualDb_iff_same_cells (a b : Db) (hsa : SortedCells a.cells)
    (hsb : SortedCells b.cells) :
    IsEqualDb a b = true
      ↔ (∀ cs : cellState, cs ∈ MakePatchOfDb a ↔ cs ∈ MakePatchOfDb b) := by
  constructor
  · intro h cs
    have hc := (isEqualDb_iff_cells_eq a b).mp h
    unfold MakePatchOfDb
    rw [hc]
  · intro h
    rw [isEqualDb_iff_cells_eq]
    apply sortedCells_eq_of_mem_iff _ _ hsa hsb
    intro cv
    have := h ⟨cv.1.bucket, cv.1.key, true, cv.2⟩
    unfold MakePatchOfDb at this
    constructor
    · intro hmem
      have hin : (⟨cv.1.bucket, cv.1.key, true, cv.2⟩ : cellState)
          ∈ b.cells.map (fun cv => (⟨cv.1.bucket, cv.1.key, true, cv.2⟩ : cellState)) :=
        this.mp (List.mem_map_of_mem _ hmem)
      rcases List.mem_map.mp hin with ⟨cw, hcw, hE⟩
      have : cw = cv := patchEntry_injective hE
      exact this ▸ hcw
    · intro hmem
      have hin : (⟨cv.1.bucket, cv.1.key, true, cv.2⟩ : cellState)
          ∈ a.cells.map (fun cv => (⟨cv.1.bucket, cv.1.key, true, cv.2⟩ : cellState)) :=
        this.mpr (List.mem_map_of_mem _ hmem)
      rcases List.mem_map.mp hin with ⟨cw, hcw, hE⟩
      have : cw = cv := patchEntry_injective hE
      exact this ▸ hcw

theorem isEqualDb_iff_same_cells_witness :
    SortedCells ((⟨[[1]], [(⟨[1], [5]⟩, [9])]⟩ : Db)).cells
    ∧ (IsEqualDb ⟨[[1]], [(⟨[1], [5]⟩, [9])]⟩ ⟨[[2]], [(⟨[1], [5]⟩, [9])]⟩ = true
      ↔ (∀ cs : cellState,
          cs ∈ MakePatchOfDb ⟨[[1]], [(⟨[1], [5]⟩, [9])]⟩
            ↔ cs ∈ MakePatchOfDb ⟨[[2]], [(⟨[1], [5]⟩, [9])]⟩)) :=
  ⟨by decide,
    isEqualDb_iff_same_cells ⟨[[1]], [(⟨[1], [5]⟩, [9])]⟩ ⟨[[2]], [(⟨[1], [5]⟩, [9])]⟩
      (by decide) (by decide)⟩

/-- C8 counterexample: the current `Database.Close` called with one
transaction still open is not rejected — it destroys the environment and
reports success. -/
theorem databaseClose_open_txn_counterexample :
    databaseClose ⟨true, 1⟩ = (⟨false, 1⟩, none) := rfl

/-- C8 (amended): the legacy `Context.CloseDB` fails fast (panics)
whenever a transaction is still open, while the current `Database.Close`
performs no open-transaction check at all: it closes the environment and
returns success however many transactions are open. -/
theorem close_with_open_transactions (c : ContextState) :
    (c.txnOpen = true → contextCloseDB c = none)
    ∧ (c.txnOpen = false → contextCloseDB c = some ⟨false, c.txnOpen⟩)
    ∧ (∀ (en : Bool) (n : Nat), databaseClose ⟨en, n⟩ = (⟨false, n⟩, none)) := by
  refine ⟨?_, ?_, ?_⟩
  · intro h
    simp [contextCloseDB, h]
  · intro h
    simp [contextCloseDB, h]
  · intro en n
    cases en <;> rfl

theorem close_with_open_transactions_witness :
    contextCloseDB ⟨true, true⟩ = none
    ∧ contextCloseDB ⟨true, false⟩ = some ⟨false, false⟩ :=
  ⟨(close_with_open_transactions ⟨true, true⟩).1 rfl,
   (close_with_open_transactions ⟨true, false⟩).2.1 rfl⟩

theorem openBucketsGo_ok (limit : Int) (rem : List Bytes) :
    ∀ acc : List Bytes, ((acc.length : Int) + (rem.length : Int) ≤ limit) →
      (∀ b ∈ rem, b ≠ []) → ∃ tbl, openBucketsGo limit acc rem = .ok tbl := by
  induction rem with
  | nil =>
    intro acc _ _
    exact ⟨acc, rfl⟩
  | cons name rest ih =>
    intro acc hlen hne
    have hname : name ≠ [] := hne name (List.mem_cons_self _ _)
    rw [openBucketsGo, if_neg hname]
    by_cases hmem : name ∈ acc
    · rw [if_pos hmem]
      apply ih acc _ (fun b hb => hne b (List.mem_cons_of_mem _ hb))
      have : ((rest.length : Int)) + 1 = ((name :: rest).length : Int) := by
        simp
      omega
    · rw [if_neg hmem]
      have hfit : ¬ limit < (acc.length : Int) + 1 := by
        have : ((name :: rest).length : Int) = (rest.length : Int) + 1 := by
          simp
        omega
      rw [if_neg hfit]
      apply ih (acc ++ [name]) _ (fun b hb => hne b (List.mem_cons_of_mem _ hb))
      have h1 : (((acc ++ [name]).length : Int)) = (acc.length : Int) + 1 := by
        simp
      have h2 : ((name :: rest).length : Int) = (rest.length : Int) + 1 := by
        simp
      omega

/-- C10: `Open2` silently raises a too-small maximum-bucket limit to the
number of requested buckets before configuring the engine, so (for
well-formed, non-empty bucket names) the bootstrap never fails because
the caller's configured maximum was smaller than the request. -/
theorem open2_raises_maxDB (maxDB : Int) (buckets : List Bytes)
    (h : ∀ b ∈ buckets, b ≠ []) :
    ((buckets.length : Int) ≤ open2MaxDB maxDB buckets)
    ∧ (maxDB < (buckets.length : Int) → open2MaxDB maxDB buckets = (buckets.length : Int))
    ∧ ∃ tbl, open2Buckets maxDB buckets = .ok tbl := by
  have hmax : (buckets.length : Int) ≤ open2MaxDB maxDB buckets := by
    unfold open2MaxDB
    split <;> omega
  refine ⟨hmax, ?_, ?_⟩
  · intro hlt
    unfold open2MaxDB
    rw [if_pos hlt]
  · apply openBucketsGo_ok _ _ [] _ h
    simp
    exact hmax

theorem open2_raises_maxDB_witness :
    (∀ b ∈ [[1], [2]], b ≠ ([] : Bytes))
    ∧ (((([[1], [2]] : List Bytes).length : Int) ≤ open2MaxDB 0 [[1], [2]])
      ∧ ((0 : Int) < (([[1], [2]] : List Bytes).length : Int) →
          open2MaxDB 0 [[1], [2]] = (([[1], [2]] : List Bytes).length : Int))
      ∧ ∃ tbl, open2Buckets 0 [[1], [2]] = .ok tbl) :=
  ⟨by decide, open2_raises_maxDB 0 [[1], [2]] (by decide)⟩

/-! ## CellKey serialization (claim C7)

`CellKey.Serialize` (src/unnamed/part_004:10-16) is `json.Marshal` of
`struct { Bucket string; Key []byte }`; `DeserializeCellKey` is
`json.Unmarshal` into the same struct (the current two-value variant
returns the value and an error; `none` models the error case).

The Go string is modelled as its sequence of Unicode scalar values
(`List Char`); the `[]byte` key as `List Nat` with entries below 256.
`json.Marshal` emits the object in declared field order with HTML
escaping on (`"`, `\`, control characters, `<`, `>`, `&`, U+2028/U+2029
escaped, lowercase hex), and encodes `[]byte` as standard padded
base64. `json.Unmarshal` is modelled as a parser for the canonical
shape `Marshal` emits. -/

/-- Lowercase hex digit, as in the encoder's `"0123456789abcdef"`. -/
def hexDigitChar (n : Nat) : Char :=
  if n < 10 then Char.ofNat ('0'.toNat + n) else Char.ofNat ('a'.toNat + n - 10)

/-- Hex digit value accepted by the scanner (either case). -/
def hexVal (c : Char) : Option Nat :=
  if '0' ≤ c ∧ c ≤ '9' then some (c.toNat - '0'.toNat)
  else if 'a' ≤ c ∧ c ≤ 'f' then some (c.toNat - 'a'.toNat + 10)
  else if 'A' ≤ c ∧ c ≤ 'F' then some (c.toNat - 'A'.toNat + 10)
  else none

/-- JSON string escaping of one character, exactly as the Go encoder
with HTML escaping enabled emits it. -/
def escapeChar (c : Char) : List Char :=
  if c = '"' then ['\\', '"']
  else if c = '\\' then ['\\', '\\']
  else if c = '\n' then ['\\', 'n']
  else if c = '\r' then ['\\', 'r']
  else if c = '\t' then ['\\', 't']
  else if c.toNat < 32 ∨ c = '<' ∨ c = '>' ∨ c = '&' then
    ['\\', 'u', '0', '0', hexDigitChar (c.toNat / 16), hexDigitChar (c.toNat % 16)]
  else if c.toNat = 0x2028 then ['\\', 'u', '2', '0', '2', '8']
  else if c.toNat = 0x2029 then ['\\', 'u', '2', '0', '2', '9']
  else [c]

/-- JSON string escaping of a whole string. -/
def escapeList : List Char → List Char
  | [] => []
  | c :: rest => escapeChar c ++ escapeList rest

/-- Scan a JSON string literal body up to its closing quote, keeping
escape sequences intact; returns the raw body and the remainder after
the quote. -/
def takeLit : List Char → Option (List Char × List Char)
  | [] => none
  | c :: t =>
    if c = '"' then some ([], t)
    else if c = '\\' then
      match t with
      | [] => none
      | c2 :: t2 => Option.map (fun p => ('\\' :: c2 :: p.1, p.2)) (takeLit t2)
    else Option.map (fun p => (c :: p.1, p.2)) (takeLit t)

/-- Undo JSON string escaping (the decoder's unquoting). -/
def unescape : List Char → Option (List Char)
  | [] => some []
  | c :: t =>
    if c = '\\' then
      match t with
      | [] => none
      | c2 :: t2 =>
        if c2 = '"' then Option.map (List.cons '"') (unescape t2)
        else if c2 = '\\' then Option.map (List.cons '\\') (unescape t2)
        else if c2 = '/' then Option.map (List.cons '/') (unescape t2)
        else if c2 = 'n' then Option.map (List.cons '\n') (unescape t2)
        else if c2 = 'r' then Option.map (List.cons '\r') (unescape t2)
        else if c2 = 't' then Option.map (List.cons '\t') (unescape t2)
        else if c2 = 'b' then Option.map (List.cons (Char.ofNat 8)) (unescape t2)
        else if c2 = 'f' then Option.map (List.cons (Char.ofNat 12)) (unescape t2)
        else if c2 = 'u' then
          match t2 with
          | h1 :: h2 :: h3 :: h4 :: t3 =>
            match hexVal h1, hexVal h2, hexVal h3, hexVal h4 with
            | some v1, some v2, some v3, some v4 =>
              Option.map (List.cons (Char.ofNat (v1 * 4096 + v2 * 256 + v3 * 16 + v4)))
                (unescape t3)
            | _, _, _, _ => none
          | _ => none
        else none
    else Option.map (List.cons c) (unescape t)

/-- Standard base64 alphabet (RFC 4648, as in Go's `StdEncoding`). -/
def b64Char (n : Nat) : Char :=
  if n < 26 then Char.ofNat ('A'.toNat + n)
  else if n < 52 then Char.ofNat ('a'.toNat + n - 26)
  else if n < 62 then Char.ofNat ('0'.toNat + n - 52)
  else if n = 62 then '+'
  else '/'

/-- Base64 alphabet value of a character. -/
def b64Val (c : Char) : Option Nat :=
  if 'A' ≤ c ∧ c ≤ 'Z' then some (c.toNat - 'A'.toNat)
  else if 'a' ≤ c ∧ c ≤ 'z' then some (c.toNat - 'a'.toNat + 26)
  else if '0' ≤ c ∧ c ≤ '9' then some (c.toNat - '0'.toNat + 52)
  else if c = '+' then some 62
  else if c = '/' then some 63
  else none

/-- Standard padded base64 encoding of a byte sequence. -/
def b64encode : List Nat → List Char
  | [] => []
  | [a] => [b64Char (a / 4), b64Char (a % 4 * 16), '=', '=']
  | [a, b] => [b64Char (a / 4), b64Char (a % 4 * 16 + b / 16), b64Char (b % 16 * 4), '=']
  | a :: b :: c :: rest =>
    b64Char (a / 4) :: b64Char (a % 4 * 16 + b / 16) :: b64Char (b % 16 * 4 + c / 64)
      :: b64Char (c % 64) :: b64encode rest

/-- Standard padded base64 decoding: a final quartet may carry one or
two `=` padding characters. -/
def b64decode : List Char → Option (List Nat)
  | [] => some []
  | c1 :: c2 :: c3 :: c4 :: rest =>
    if rest = [] ∧ c4 = '=' then
      if c3 = '=' then
        match b64Val c1, b64Val c2 with
        | some v1, some v2 => some [v1 * 4 + v2 / 16]
        | _, _ => none
      else
        match b64Val c1, b64Val c2, b64Val c3 with
        | some v1, some v2, some v3 => some [v1 * 4 + v2 / 16, v2 % 16 * 16 + v3 / 4]
        | _, _, _ => none
    else
      match b64Val c1, b64Val c2, b64Val c3, b64Val c4, b64decode rest with
      | some v1, some v2, some v3, some v4, some r =>
        some ((v1 * 4 + v2 / 16) :: (v2 % 16 * 16 + v3 / 4) :: (v3 % 4 * 64 + v4) :: r)
      | _, _, _, _, _ => none
  | _ => none

/-- A cell key as serialized: bucket name (Go string, as its scalar
values) and raw key bytes (src/unnamed/part_004:5-8). -/
structure CellKey where
  Bucket : List Char
  Key : List Nat
  deriving DecidableEq, Repr

/-- Consume an expected literal prefix, returning the remainder. -/
def stripPre : List Char → List Char → Option (List Char)
  | [], rest => some rest
  | _ :: _, [] => none
  | p :: ps, c :: cs => if c = p then stripPre ps cs else none

/-- The serialized object's opening through the Bucket field's opening
quote. -/
def jsonPrefix1 : List Char := '\x7b' :: "\"Bucket\":\"".toList

/-- The separator between the Bucket literal's closing quote and the
Key literal's opening quote. -/
def jsonSep : List Char := ",\"Key\":\"".toList

/-- `CellKey.Serialize` (src/unnamed/part_004:10-16): `json.Marshal` of
the struct, i.e. the canonical object text with the Bucket string
escaped and the Key bytes in padded base64. -/
def CellKey.Serialize (ck : CellKey) : List Char :=
  jsonPrefix1 ++ escapeList ck.Bucket ++ ('"' :: jsonSep)
    ++ b64encode ck.Key ++ ['"', '\x7d']

/-- `DeserializeCellKey` (src/unnamed/part_004:18-24, current two-value
variant): `json.Unmarshal` into a `CellKey`, modelled as the parser of
the canonical marshalled shape; `none` models the error return. -/
def DeserializeCellKey (l : List Char) : Option CellKey :=
  match stripPre jsonPrefix1 l with
  | none => none
  | some r1 =>
    match takeLit r1 with
    | none => none
    | some (esc, r2) =>
      match unescape esc with
      | none => none
      | some bucket =>
        match stripPre jsonSep r2 with
        | none => none
        | some r3 =>
          match takeLit r3 with
          | none => none
          | some (lit, r4) =>
            match b64decode lit with
            | none => none
            | some key =>
              match r4 with
              | ['\x7d'] => some ⟨bucket, key⟩
              | _ => none

theorem hexVal_hexDigitChar : ∀ m < 16, hexVal (hexDigitChar m) = some m := by decide

theorem hexDigitChar_plain :
    ∀ m < 16, hexDigitChar m ≠ '"' ∧ hexDigitChar m ≠ '\\' := by decide

theorem b64Val_b64Char : ∀ n < 64, b64Val (b64Char n) = some n := by decide

theorem b64Char_plain :
    ∀ n < 64, (b64Char n ≠ '"' ∧ b64Char n ≠ '\\') ∧ b64Char n ≠ '=' := by decide

/-- Base64 round trip on genuine byte sequences. -/
theorem b64decode_b64encode (l : List Nat) (h : ∀ b ∈ l, b < 256) :
    b64decode (b64encode l) = some l := by
  induction l using b64encode.induct with
  | case1 => rfl
  | case2 a =>
    have ha : a < 256 := h a (List.mem_cons_self _ _)
    have h1 := b64Val_b64Char (a / 4) (by omega)
    have h2 := b64Val_b64Char (a % 4 * 16) (by omega)
    simp [b64encode, b64decode, h1, h2]
    omega
  | case3 a b =>
    have ha : a < 256 := h a (List.mem_cons_self _ _)
    have hb : b < 256 := h b (List.mem_cons_of_mem _ (List.mem_cons_self _ _))
    have h1 := b64Val_b64Char (a / 4) (by omega)
    have h2 := b64Val_b64Char (a % 4 * 16 + b / 16) (by omega)
    have h3 := b64Val_b64Char (b % 16 * 4) (by omega)
    have hc3 : b64Char (b % 16 * 4) ≠ '=' := (b64Char_plain _ (by omega)).2
    simp [b64encode, b64decode, h1, h2, h3, hc3]
    constructor
    · omega
    · omega
  | case4 a b c rest ih =>
    have ha : a < 256 := h a (List.mem_cons_self _ _)
    have hb : b < 256 := h b (List.mem_cons_of_mem _ (List.mem_cons_self _ _))
    have hc : c < 256 := h c
      (List.mem_cons_of_mem _ (List.mem_cons_of_mem _ (List.mem_cons_self _ _)))
    have hrest : ∀ x ∈ rest, x < 256 := fun x hx => h x
      (List.mem_cons_of_mem _ (List.mem_cons_of_mem _ (List.mem_cons_of_mem _ hx)))
    have h1 := b64Val_b64Char (a / 4) (by omega)
    have h2 := b64Val_b64Char (a % 4 * 16 + b / 16) (by omega)
    have h3 := b64Val_b64Char (b % 16 * 4 + c / 64) (by omega)
    have h4 := b64Val_b64Char (c % 64) (by omega)
    have hc4 : b64Char (c % 64) ≠ '=' := (b64Char_plain _ (by omega)).2
    have hv1 : a / 4 * 4 + (a % 4 * 16 + b / 16) / 16 = a := by omega
    have hv2 : (a % 4 * 16 + b / 16) % 16 * 16 + (b % 16 * 4 + c / 64) / 4 = b := by omega
    have hv3 : (b % 16 * 4 + c / 64) % 4 * 64 + c % 64 = c := by omega
    simp [b64encode, b64decode, h1, h2, h3, h4, hc4, hv1, hv2, hv3, ih hrest]

/-- Base64 output never contains a quote or a backslash. -/
theorem b64encode_chars (l : List Nat) (h : ∀ b ∈ l, b < 256) :
    ∀ ch ∈ b64encode l, ch ≠ '"' ∧ ch ≠ '\\' := by
  induction l using b64encode.induct with
  | case1 =>
    intro ch hch
    cases hch
  | case2 a =>
    have ha : a < 256 := h a (List.mem_cons_self _ _)
    intro ch hch
    simp only [b64encode, List.mem_cons, List.not_mem_nil, or_false] at hch
    rcases hch with h' | h' | h' | h'
    · rw [h']
      exact (b64Char_plain _ (by omega)).1
    · rw [h']
      exact (b64Char_plain _ (by omega)).1
    · rw [h']
      exact ⟨by decide, by decide⟩
    · rw [h']
      exact ⟨by decide, by decide⟩
  | case3 a b =>
    have ha : a < 256 := h a (List.mem_cons_self _ _)
    have hb : b < 256 := h b (List.mem_cons_of_mem _ (List.mem_cons_self _ _))
    intro ch hch
    simp only [b64encode, List.mem_cons, List.not_mem_nil, or_false] at hch
    rcases hch with h' | h' | h' | h'
    · rw [h']
      exact (b64Char_plain _ (by omega)).1
    · rw [h']
      exact (b64Char_plain _ (by omega)).1
    · rw [h']
      exact (b64Char_plain _ (by omega)).1
    · rw [h']
      exact ⟨by decide, by decide⟩
  | case4 a b c rest ih =>
    have ha : a < 256 := h a (List.mem_cons_self _ _)
    have hb : b < 256 := h b (List.mem_cons_of_mem _ (List.mem_cons_self _ _))
    have hc : c < 256 := h c
      (List.mem_cons_of_mem _ (List.mem_cons_of_mem _ (List.mem_cons_self _ _)))
    have hrest : ∀ x ∈ rest, x < 256 := fun x hx => h x
      (List.mem_cons_of_mem _ (List.mem_cons_of_mem _ (List.mem_cons_of_mem _ hx)))
    intro ch hch
    simp only [b64encode, List.mem_cons] at hch
    rcases hch with h' | h' | h' | h' | h'
    · rw [h']
      exact (b64Char_plain _ (by omega)).1
    · rw [h']
      exact (b64Char_plain _ (by omega)).1
    · rw [h']
      exact (b64Char_plain _ (by omega)).1
    · rw [h']
      exact (b64Char_plain _ (by omega)).1
    · exact ih hrest ch h'

theorem takeLit_quote (t : List Char) : takeLit ('"' :: t) = some ([], t) := by
  rw [takeLit.eq_def]
  simp

theorem takeLit_esc (c2 : Char) (t : List Char) :
    takeLit ('\\' :: c2 :: t)
      = Option.map (fun p => ('\\' :: c2 :: p.1, p.2)) (takeLit t) := by
  rw [takeLit.eq_def]
  simp

theorem takeLit_plain_cons (c : Char) (hq : c ≠ '"') (hb : c ≠ '\\') (t : List Char) :
    takeLit (c :: t) = Option.map (fun p => (c :: p.1, p.2)) (takeLit t) := by
  rw [takeLit.eq_def]
  simp [hq, hb]

theorem takeLit_append_plain (lit : List Char)
    (hlit : ∀ ch ∈ lit, ch ≠ '"' ∧ ch ≠ '\\') (r : List Char) :
    takeLit (lit ++ r) = Option.map (fun p => (lit ++ p.1, p.2)) (takeLit r) := by
  induction lit with
  | nil =>
    cases htr : takeLit r with
    | none => simp [htr]
    | some p => simp [htr]
  | cons c cs ih =>
    have hc := hlit c (List.mem_cons_self _ _)
    have hcs : ∀ ch ∈ cs, ch ≠ '"' ∧ ch ≠ '\\' :=
      fun ch hch => hlit ch (List.mem_cons_of_mem _ hch)
    rw [List.cons_append, takeLit_plain_cons c hc.1 hc.2, ih hcs]
    cases htr : takeLit r with
    | none => simp [htr]
    | some p => simp [htr]

theorem takeLit_closed (lit : List Char)
    (hlit : ∀ ch ∈ lit, ch ≠ '"' ∧ ch ≠ '\\') (rest : List Char) :
    takeLit (lit ++ '"' :: rest) = some (lit, rest) := by
  rw [takeLit_append_plain lit hlit, takeLit_quote]
  simp

theorem unescape_u (h1 h2 h3 h4 : Char) (v1 v2 v3 v4 : Nat) (t : List Char)
    (e1 : hexVal h1 = some v1) (e2 : hexVal h2 = some v2)
    (e3 : hexVal h3 = some v3) (e4 : hexVal h4 = some v4) :
    unescape ('\\' :: 'u' :: h1 :: h2 :: h3 :: h4 :: t)
      = Option.map (List.cons (Char.ofNat (v1 * 4096 + v2 * 256 + v3 * 16 + v4)))
          (unescape t) := by
  rw [unescape.eq_def]
  simp [e1, e2, e3, e4]

/-- Unescaping inverts the escaping of a single character. -/
theorem unescape_escapeChar (c : Char) (t : List Char) :
    unescape (escapeChar c ++ t) = Option.map (List.cons c) (unescape t) := by
  by_cases h1 : c = '"'
  · subst h1
    simp only [escapeChar, reduceIte, List.cons_append, List.nil_append]
    rw [unescape.eq_def]
    simp
  · by_cases h2 : c = '\\'
    · subst h2
      simp only [escapeChar, reduceIte, List.cons_append, List.nil_append]
      rw [unescape.eq_def]
      simp
    · by_cases h3 : c = '\n'
      · subst h3
        simp only [escapeChar, reduceIte, List.cons_append, List.nil_append]
        rw [unescape.eq_def]
        simp
      · by_cases h4 : c = '\r'
        · subst h4
          simp only [escapeChar, reduceIte, List.cons_append, List.nil_append]
          rw [unescape.eq_def]
          simp
        · by_cases h5 : c = '\t'
          · subst h5
            simp only [escapeChar, reduceIte, List.cons_append, List.nil_append]
            rw [unescape.eq_def]
            simp
          · by_cases h6 : c.toNat < 32 ∨ c = '<' ∨ c = '>' ∨ c = '&'
            · have hesc : escapeChar c
                  = ['\\', 'u', '0', '0', hexDigitChar (c.toNat / 16),
                      hexDigitChar (c.toNat % 16)] := by
                unfold escapeChar
                rw [if_neg h1, if_neg h2, if_neg h3, if_neg h4, if_neg h5, if_pos h6]
              have hdiv : c.toNat / 16 < 16 := by
                rcases h6 with h | h | h | h
                · omega
                · rw [h]; decide
                · rw [h]; decide
                · rw [h]; decide
              rw [hesc, List.cons_append, List.cons_append, List.cons_append,
                List.cons_append, List.cons_append, List.singleton_append,
                unescape_u '0' '0' (hexDigitChar (c.toNat / 16))
                  (hexDigitChar (c.toNat % 16)) 0 0 (c.toNat / 16) (c.toNat % 16) t
                  (by decide) (by decide) (hexVal_hexDigitChar _ hdiv)
                  (hexVal_hexDigitChar _ (by omega))]
              rw [show 0 * 4096 + 0 * 256 + c.toNat / 16 * 16 + c.toNat % 16 = c.toNat
                from by omega]
              rw [Char.ofNat_toNat]
            · by_cases h7 : c.toNat = 0x2028
              · have hesc : escapeChar c = ['\\', 'u', '2', '0', '2', '8'] := by
                  unfold escapeChar
                  rw [if_neg h1, if_neg h2, if_neg h3, if_neg h4, if_neg h5,
                    if_neg h6, if_pos h7]
                rw [hesc, List.cons_append, List.cons_append, List.cons_append,
                  List.cons_append, List.cons_append, List.singleton_append,
                  unescape_u '2' '0' '2' '8' 2 0 2 8 t
                    (by decide) (by decide) (by decide) (by decide)]
                rw [show 2 * 4096 + 0 * 256 + 2 * 16 + 8 = c.toNat from by omega]
                rw [Char.ofNat_toNat]
              · by_cases h8 : c.toNat = 0x2029
                · have hesc : escapeChar c = ['\\', 'u', '2', '0', '2', '9'] := by
                    unfold escapeChar
                    rw [if_neg h1, if_neg h2, if_neg h3, if_neg h4, if_neg h5,
                      if_neg h6, if_neg h7, if_pos h8]
                  rw [hesc, List.cons_append, List.cons_append, List.cons_append,
                    List.cons_append, List.cons_append, List.singleton_append,
                    unescape_u '2' '0' '2' '9' 2 0 2 9 t
                      (by decide) (by decide) (by decide) (by decide)]
                  rw [show 2 * 4096 + 0 * 256 + 2 * 16 + 9 = c.toNat from by omega]
                  rw [Char.ofNat_toNat]
                · have hesc : escapeChar c = [c] := by
                    unfold escapeChar
                    rw [if_neg h1, if_neg h2, if_neg h3, if_neg h4, if_neg h5,
                      if_neg h6, if_neg h7, if_neg h8]
                  rw [hesc, List.singleton_append, unescape.eq_def]
                  simp [h2]

/-- Scanning passes over the escaping of a single character without
seeing a terminating quote. -/
theorem takeLit_escapeChar (c : Char) (r : List Char) :
    takeLit (escapeChar c ++ r)
      = Option.map (fun p => (escapeChar c ++ p.1, p.2)) (takeLit r) := by
  by_cases h1 : c = '"'
  · subst h1
    rw [show escapeChar '"' = ['\\', '"'] from rfl, List.cons_append,
      List.singleton_append, takeLit_esc]
    cases htr : takeLit r with
    | none => simp
    | some p => simp
  · by_cases h2 : c = '\\'
    · subst h2
      rw [show escapeChar '\\' = ['\\', '\\'] from rfl, List.cons_append,
        List.singleton_append, takeLit_esc]
      cases htr : takeLit r with
      | none => simp
      | some p => simp
    · by_cases h3 : c = '\n'
      · subst h3
        rw [show escapeChar '\n' = ['\\', 'n'] from rfl, List.cons_append,
          List.singleton_append, takeLit_esc]
        cases htr : takeLit r with
        | none => simp
        | some p => simp
      · by_cases h4 : c = '\r'
        · subst h4
          rw [show escapeChar '\r' = ['\\', 'r'] from rfl, List.cons_append,
            List.singleton_append, takeLit_esc]
          cases htr : takeLit r with
          | none => simp
          | some p => simp
        · by_cases h5 : c = '\t'
          · subst h5
            rw [show escapeChar '\t' = ['\\', 't'] from rfl, List.cons_append,
              List.singleton_append, takeLit_esc]
            cases htr : takeLit r with
            | none => simp
            | some p => simp
          · by_cases h6 : c.toNat < 32 ∨ c = '<' ∨ c = '>' ∨ c = '&'
            · have hesc : escapeChar c
                  = ['\\', 'u', '0', '0', hexDigitChar (c.toNat / 16),
                      hexDigitChar (c.toNat % 16)] := by
                unfold escapeChar
                rw [if_neg h1, if_neg h2, if_neg h3, if_neg h4, if_neg h5, if_pos h6]
              have hdiv : c.toNat / 16 < 16 := by
                rcases h6 with h | h | h | h
                · omega
                · rw [h]; decide
                · rw [h]; decide
                · rw [h]; decide
              have hplain : ∀ ch ∈ ['0', '0', hexDigitChar (c.toNat / 16),
                  hexDigitChar (c.toNat % 16)], ch ≠ '"' ∧ ch ≠ '\\' := by
                intro ch hch
                rcases List.mem_cons.mp hch with h' | hch
                · rw [h']; exact ⟨by decide, by decide⟩
                rcases List.mem_cons.mp hch with h' | hch
                · rw [h']; exact ⟨by decide, by decide⟩
                rcases List.mem_cons.mp hch with h' | hch
                · rw [h']; exact hexDigitChar_plain _ hdiv
                rcases List.mem_cons.mp hch with h' | hch
                · rw [h']; exact hexDigitChar_plain _ (by omega)
                · cases hch
              rw [hesc, List.cons_append, List.cons_append, takeLit_esc,
                takeLit_append_plain _ hplain]
              cases htr : takeLit r with
              | none => simp
              | some p => simp
            · by_cases h7 : c.toNat = 0x2028
              · have hesc : escapeChar c = ['\\', 'u', '2', '0', '2', '8'] := by
                  unfold escapeChar
                  rw [if_neg h1, if_neg h2, if_neg h3, if_neg h4, if_neg h5,
                    if_neg h6, if_pos h7]
                have hplain : ∀ ch ∈ ['2', '0', '2', '8'], ch ≠ '"' ∧ ch ≠ '\\' := by
                  decide
                rw [hesc, List.cons_append, List.cons_append, takeLit_esc,
                  takeLit_append_plain _ hplain]
                cases htr : takeLit r with
                | none => simp
                | some p => simp
              · by_cases h8 : c.toNat = 0x2029
                · have hesc : escapeChar c = ['\\', 'u', '2', '0', '2', '9'] := by
                    unfold escapeChar
                    rw [if_neg h1, if_neg h2, if_neg h3, if_neg h4, if_neg h5,
                      if_neg h6, if_neg h7, if_pos h8]
                  have hplain : ∀ ch ∈ ['2', '0', '2', '9'], ch ≠ '"' ∧ ch ≠ '\\' := by
                    decide
                  rw [hesc, List.cons_append, List.cons_append, takeLit_esc,
                    takeLit_append_plain _ hplain]
                  cases htr : takeLit r with
                  | none => simp
                  | some p => simp
                · have hesc : escapeChar c = [c] := by
                    unfold escapeChar
                    rw [if_neg h1, if_neg h2, if_neg h3, if_neg h4, if_neg h5,
                      if_neg h6, if_neg h7, if_neg h8]
                  rw [hesc, List.singleton_append, takeLit_plain_cons c h1 h2]
                  cases htr : takeLit r with
                  | none => simp
                  | some p => simp

/-- The scanner returns exactly the escaped bucket string. -/
theorem takeLit_escapeList (l : List Char) (rest : List Char) :
    takeLit (escapeList l ++ '"' :: rest) = some (escapeList l, rest) := by
  induction l with
  | nil =>
    rw [escapeList, List.nil_append, takeLit_quote]
  | cons c cs ih =>
    rw [escapeList, List.append_assoc, takeLit_escapeChar, ih]
    rfl

/-- Unescaping inverts escaping on whole strings. -/
theorem unescape_escapeList (l : List Char) : unescape (escapeList l) = some l := by
  induction l with
  | nil => rfl
  | cons c cs ih =>
    rw [escapeList, unescape_escapeChar, ih]
    rfl

theorem stripPre_append (p r : List Char) : stripPre p (p ++ r) = some r := by
  induction p with
  | nil => rfl
  | cons c cs ih => simp [stripPre, ih]

/-- C7: `DeserializeCellKey` inverts `CellKey.Serialize` for every
bucket-name string and raw key byte sequence. -/
theorem deserialize_serialize_cellKey (ck : CellKey) (h : ∀ b ∈ ck.Key, b < 256) :
    DeserializeCellKey (CellKey.Serialize ck) = some ck := by
  obtain ⟨bucket, key⟩ := ck
  have hb64 : takeLit (b64encode key ++ '"' :: ['\x7d'])
      = some (b64encode key, ['\x7d']) :=
    takeLit_closed _ (b64encode_chars key h) _
  simp only [CellKey.Serialize, DeserializeCellKey, List.append_assoc,
    List.cons_append, List.nil_append, stripPre_append, takeLit_escapeList,
    unescape_escapeList, hb64, b64decode_b64encode key h]

theorem deserialize_serialize_cellKey_witness :
    DeserializeCellKey (CellKey.Serialize ⟨"abce".toList, [57, 56, 55]⟩)
      = some ⟨"abce".toList, [57, 56, 55]⟩ :=
  deserialize_serialize_cellKey ⟨"abce".toList, [57, 56, 55]⟩ (by decide)

end Lmdb
